import Mathlib

/-!
Verification of the opencensus-go core components described in the
specification: the tag value codec (`tagencoding`), the Stackdriver batch
exporter (`stackdriver`), and its overflow logger.

Byte strings are modelled as `List Nat`; machine integers as `Nat`/`Int`
with explicit `% 2^w` where overflow matters.  The Go source reinterprets
the native `int` length as two bytes (`*(*[2]byte)(unsafe.Pointer(&length))`)
and reads a `uint16` back the same way; on the little-endian platforms the
library targets this is the two low-order bytes of the length, which is how
it is modelled here.
-/

namespace tagencoding

/-- Go `var sizeOfUint16 = (int)(unsafe.Sizeof(uint16(0)))` -/
def sizeOfUint16 : Nat := 2

/-- The `Values` struct: a growable byte buffer with a write and a read cursor. -/
structure Values where
  Buffer : List Nat
  WriteIndex : Nat
  ReadIndex : Nat
deriving Repr, DecidableEq

/-- The Go zero value of `Values` (fresh empty buffer). -/
def Values.empty : Values := { Buffer := [], WriteIndex := 0, ReadIndex := 0 }

/-- Go `copy(dst[start:], src)`: overwrites `min (length src) (length dst - start)`
elements of `dst` starting at position `start`; the length of `dst` never changes. -/
def listCopy (dst : List Nat) (start : Nat) (src : List Nat) : List Nat :=
  dst.take start ++ src.take (dst.length - start) ++ dst.drop (start + src.length)

/-- Go `func (vb *Values) growIfRequired(expected int)`: if fewer than `expected`
bytes remain past the write cursor, allocate a fresh zeroed buffer of size
`2*(len(vb.Buffer)+1)+expected` and copy the old contents into it. -/
def growIfRequired (vb : Values) (expected : Nat) : Values :=
  if (vb.Buffer.length : Int) - (vb.WriteIndex : Int) < (expected : Int) then
    { vb with Buffer :=
        listCopy (List.replicate (2 * (vb.Buffer.length + 1) + expected) 0) 0 vb.Buffer }
  else vb

/-- Go `func (vb *Values) WriteValue(v []byte)`: grow if required, write the two
low-order bytes of `len(v)` at the write cursor, then (if `len(v) > 0`) copy
`v` after them, advancing the cursor accordingly. -/
def WriteValue (vb : Values) (v : List Nat) : Values :=
  let length := v.length
  let vb1 := growIfRequired vb (sizeOfUint16 + length)
  -- bytes := *(*[2]byte)(unsafe.Pointer(&length))
  let b0 := length % 256
  let b1 := length / 256 % 256
  let vb2 := { vb1 with Buffer := vb1.Buffer.set vb1.WriteIndex b0, WriteIndex := vb1.WriteIndex + 1 }
  let vb3 := { vb2 with Buffer := vb2.Buffer.set vb2.WriteIndex b1, WriteIndex := vb2.WriteIndex + 1 }
  if length = 0 then
    -- No value was encoded for this key
    vb3
  else
    { vb3 with Buffer := listCopy vb3.Buffer vb3.WriteIndex v, WriteIndex := vb3.WriteIndex + length }

/-- Go `func (vb *Values) ReadValue() []byte`: read a 16-bit length at the read
cursor, advance past it, and (if nonzero) copy that many bytes out, advancing
the cursor past them.  Returns the bytes read together with the new state. -/
def ReadValue (vb : Values) : List Nat × Values :=
  let length := vb.Buffer.getD vb.ReadIndex 0 + 256 * vb.Buffer.getD (vb.ReadIndex + 1) 0
  let vb1 := { vb with ReadIndex := vb.ReadIndex + sizeOfUint16 }
  if length = 0 then
    -- No value was encoded for this key
    ([], vb1)
  else
    let endIdx := vb1.ReadIndex + length
    ((vb1.Buffer.drop vb1.ReadIndex).take length, { vb1 with ReadIndex := endIdx })

/-- Go `func (vb *Values) Bytes() []byte`: the written prefix `vb.Buffer[:vb.WriteIndex]`. -/
def Bytes (vb : Values) : List Nat := vb.Buffer.take vb.WriteIndex

/-- Performing a sequence of `WriteValue` calls in order. -/
def writeAll (vb : Values) (vs : List (List Nat)) : Values :=
  vs.foldl WriteValue vb

/-- Performing `n` `ReadValue` calls in order, collecting the values read. -/
def readAll (vb : Values) : Nat → List (List Nat) × Values
  | 0 => ([], vb)
  | n + 1 =>
    let p := ReadValue vb
    let q := readAll p.2 n
    (p.1 :: q.1, q.2)

/-- The wire encoding of one value: two low-order length bytes then the payload. -/
def encodeValue (v : List Nat) : List Nat :=
  v.length % 256 :: v.length / 256 % 256 :: v

/-- The wire encoding of a sequence of values, concatenated in order. -/
def encodeAll (vs : List (List Nat)) : List Nat :=
  (vs.map encodeValue).flatten

/-- Total encoded size of a sequence of values. -/
def encodedSize (vs : List (List Nat)) : Nat :=
  (vs.map (fun v => 2 + v.length)).sum

end tagencoding

namespace stackdriver

/-- Go `time.Duration`: a count of nanoseconds. -/
abbrev Duration := Int

/-- Go `time.Second` in nanoseconds. -/
def timeSecond : Duration := 1000000000

/-- The fields of `stackdriver.Options` relevant to the bundler configuration. -/
structure Options where
  ProjectID : String
  BundleDelayThreshold : Duration
  BundleCountThreshold : Int

/-- The configuration fields of `bundler.Bundler` set by `newExporter`. -/
structure Bundler where
  DelayThreshold : Duration
  BundleCountThreshold : Int
  BundleByteThreshold : Int
  BundleByteLimit : Int
  BufferedByteLimit : Int
deriving Repr, DecidableEq

/-- The exporter fields modelled here (the client and upload function are
external effects). -/
structure Exporter where
  projectID : String
  bundler : Bundler

/-- Go `func newExporter(o Options, client *tracingclient.Client) *Exporter`. -/
def newExporter (o : Options) : Exporter :=
  let delayThreshold := if o.BundleDelayThreshold > 0 then o.BundleDelayThreshold else 2 * timeSecond
  let countThreshold := if o.BundleCountThreshold > 0 then o.BundleCountThreshold else 50
  { projectID := o.ProjectID,
    bundler := {
      DelayThreshold := delayThreshold,
      BundleCountThreshold := countThreshold,
      BundleByteThreshold := countThreshold * 200,
      BundleByteLimit := countThreshold * 1000,
      BufferedByteLimit := countThreshold * 2000 } }

/-- The fields of `trace.SpanData` whose sizes enter the weight heuristic of
`Export`; the element types are opaque to the exporter. -/
structure SpanData where
  Attributes : List (String × Int)
  Annotations : List String
  MessageEvents : List String
  StackTrace : List Nat
deriving Repr, DecidableEq

/-- The result of `bundler.Add`: `nil`, `ErrOversizedItem`, `ErrOverflow`, or
any other error. -/
inductive AddResult where
  | ok
  | errOversizedItem
  | errOverflow
  | errOther
deriving Repr, DecidableEq

/-- The bundler state observable through `Add`: the pending batch and its
accumulated weight. -/
structure BundlerState where
  pending : List SpanData
  bufferedWeight : Nat
deriving Repr, DecidableEq

/-- Modelled from the spec: `bundler.Add` of the external
`google.golang.org/api/support/bundler` package is not part of this repository.
Following the specification of the outcomes of `Export`: an item whose weight
alone exceeds the hard per-batch limit is rejected as oversized; an item that
would exceed the total buffered-weight ceiling is rejected as overflow;
otherwise the item is stored and the buffered weight grows by its weight. -/
def bundlerAdd (cfg : Bundler) (st : BundlerState) (s : SpanData) (size : Nat) :
    AddResult × BundlerState :=
  if cfg.BundleByteLimit < (size : Int) then (.errOversizedItem, st)
  else if cfg.BufferedByteLimit < (st.bufferedWeight : Int) + (size : Int) then (.errOverflow, st)
  else (.ok, { pending := st.pending ++ [s], bufferedWeight := st.bufferedWeight + size })

/-- The effect of one `Export` call visible outside the bundler. -/
inductive ExportEffect where
  | accepted
  | detachedUpload (spans : List SpanData)
  | overflowLog
  | diagnosticLog
deriving Repr, DecidableEq

/-- The `switch err` statement in `Exporter.Export`: `nil` keeps the new
bundler state; `ErrOversizedItem` spawns `go e.uploadFn([]*trace.SpanData{s})`;
`ErrOverflow` calls `e.overflowLogger.log()`; any other error logs a
diagnostic.  No branch returns an error to the caller. -/
def exportSwitch (st : BundlerState) (s : SpanData) (r : AddResult × BundlerState) :
    BundlerState × ExportEffect :=
  match r.1 with
  | .ok => (r.2, .accepted)
  | .errOversizedItem => (st, .detachedUpload [s])
  | .errOverflow => (st, .overflowLog)
  | .errOther => (st, .diagnosticLog)

/-- Go `func (e *Exporter) Export(s *trace.SpanData)`: computes the length
heuristic `n` and dispatches on the result of `bundler.Add`. -/
def Export (cfg : Bundler) (st : BundlerState) (s : SpanData) : BundlerState × ExportEffect :=
  let n := 1 + s.Attributes.length + s.Annotations.length
      + s.MessageEvents.length + s.StackTrace.length
  exportSwitch st s (bundlerAdd cfg st s n)


/-- The events the overflow logger reacts to: a drop notification
(`overflowLogger.log`) and the 5-second timer firing (the `time.AfterFunc`
callback armed by `overflowLogger.delay`). -/
inductive OLEvent where
  | drop
  | timerFire
deriving Repr, DecidableEq

/-- The log lines the overflow logger can emit: the "buffer full" line (used
both on the first drop and for a single accumulated drop) and the
count-summary line reporting `accum` dropped spans. -/
inductive LogMsg where
  | bufferFull
  | droppedSpans (n : Nat)
deriving Repr, DecidableEq

/-- The `overflowLogger` state: `pause` and `accum` are the Go fields; whether
the `time.AfterFunc` timer armed by `delay` is pending is tracked explicitly. -/
structure OLState where
  pause : Bool
  accum : Nat
  timerArmed : Bool
deriving Repr, DecidableEq

/-- One transition of the overflow logger, from `overflowLogger.log` (the
`drop` event) and the callback body inside `overflowLogger.delay` (the
`timerFire` event).  Returns the new state and the log lines emitted. -/
def olStep (st : OLState) (e : OLEvent) : OLState × List LogMsg :=
  match e with
  | .drop =>
    if st.pause then ({ st with accum := st.accum + 1 }, [])
    else ({ pause := true, accum := st.accum, timerArmed := true }, [.bufferFull])
  | .timerFire =>
    if st.accum = 0 then ({ pause := false, accum := 0, timerArmed := false }, [])
    else if st.accum = 1 then ({ pause := true, accum := 0, timerArmed := true }, [.bufferFull])
    else ({ pause := true, accum := 0, timerArmed := true }, [.droppedSpans st.accum])

/-- Running the overflow logger over a sequence of events, collecting all log
lines emitted. -/
def olRun : OLState → List OLEvent → OLState × List LogMsg
  | st, [] => (st, [])
  | st, e :: es =>
    let p := olStep st e
    let q := olRun p.1 es
    (q.1, p.2 ++ q.2)


end stackdriver

namespace tagencoding

theorem length_encodeValue (v : List Nat) : (encodeValue v).length = 2 + v.length := by
  simp only [encodeValue, List.length_cons]
  omega

theorem encodeAll_cons (v : List Nat) (vs : List (List Nat)) :
    encodeAll (v :: vs) = encodeValue v ++ encodeAll vs := rfl

theorem encodedSize_cons (v : List Nat) (vs : List (List Nat)) :
    encodedSize (v :: vs) = (2 + v.length) + encodedSize vs := by
  simp [encodedSize]

theorem encodedSize_append (xs ys : List (List Nat)) :
    encodedSize (xs ++ ys) = encodedSize xs + encodedSize ys := by
  simp [encodedSize]

theorem listCopy_length (dst : List Nat) (start : Nat) (src : List Nat)
    (h : start ≤ dst.length) : (listCopy dst start src).length = dst.length := by
  simp only [listCopy, List.length_append, List.length_take, List.length_drop]
  omega

theorem listCopy_inbounds (dst : List Nat) (start : Nat) (src : List Nat)
    (h : start + src.length ≤ dst.length) :
    listCopy dst start src = dst.take start ++ src ++ dst.drop (start + src.length) := by
  unfold listCopy
  rw [List.take_of_length_le (show src.length ≤ dst.length - start by omega)]

theorem getD_of_drop (l : List Nat) (n : Nat) (x : Nat) (t : List Nat) (d : Nat)
    (h : l.drop n = x :: t) : l.getD n d = x := by
  induction n generalizing l with
  | zero => simp at h; simp [h]
  | succ n ih =>
    cases l with
    | nil => simp at h
    | cons a l' =>
      simp only [List.drop_succ_cons] at h
      simpa using ih l' h

theorem growIfRequired_spec (vb : Values) (e : Nat) (h : vb.WriteIndex ≤ vb.Buffer.length) :
    (growIfRequired vb e).WriteIndex = vb.WriteIndex ∧
    (growIfRequired vb e).ReadIndex = vb.ReadIndex ∧
    vb.WriteIndex + e ≤ (growIfRequired vb e).Buffer.length ∧
    (growIfRequired vb e).Buffer.take vb.WriteIndex = vb.Buffer.take vb.WriteIndex := by
  unfold growIfRequired
  split
  case isTrue hc =>
    have hlen : (0 : Nat) + vb.Buffer.length ≤ (List.replicate (2 * (vb.Buffer.length + 1) + e) (0 : Nat)).length := by
      simp; omega
    refine ⟨rfl, rfl, ?_, ?_⟩
    · rw [listCopy_length _ 0 _ (Nat.zero_le _)]
      simp only [List.length_replicate]
      omega
    · rw [listCopy_inbounds _ _ _ (by simpa using hlen)]
      simp only [List.take_nil, List.take_zero, List.nil_append, List.drop_replicate]
      rw [List.take_append_of_le_length h]
  case isFalse hc =>
    refine ⟨rfl, rfl, ?_, rfl⟩
    omega


theorem WriteValue_spec (vb : Values) (v : List Nat) (h : vb.WriteIndex ≤ vb.Buffer.length) :
    (WriteValue vb v).WriteIndex = vb.WriteIndex + (2 + v.length) ∧
    (WriteValue vb v).ReadIndex = vb.ReadIndex ∧
    (WriteValue vb v).WriteIndex ≤ (WriteValue vb v).Buffer.length ∧
    (WriteValue vb v).Buffer.take (vb.WriteIndex + (2 + v.length)) =
      vb.Buffer.take vb.WriteIndex ++ encodeValue v := by
  obtain ⟨hW, hR, hcap, hpre⟩ := growIfRequired_spec vb (sizeOfUint16 + v.length) h
  set g := growIfRequired vb (sizeOfUint16 + v.length) with hg
  have hsz : sizeOfUint16 = 2 := rfl
  have hcap' : vb.WriteIndex + 2 + v.length ≤ g.Buffer.length := by omega
  have hdlen : (g.Buffer.drop vb.WriteIndex).length = g.Buffer.length - vb.WriteIndex := by simp
  obtain ⟨s0, s1, S', hS⟩ : ∃ a b t, g.Buffer.drop vb.WriteIndex = a :: b :: t := by
    rcases hE : g.Buffer.drop vb.WriteIndex with _ | ⟨a, rest⟩
    · rw [hE] at hdlen; simp at hdlen; omega
    · rcases rest with _ | ⟨b, t⟩
      · rw [hE] at hdlen; simp at hdlen; omega
      · exact ⟨a, b, t, rfl⟩
  set P := g.Buffer.take vb.WriteIndex with hPdef
  have hPl : P.length = vb.WriteIndex := by
    rw [hPdef, List.length_take]; omega
  have hsplit : g.Buffer = P ++ s0 :: s1 :: S' := by
    rw [hPdef, ← hS]; exact (List.take_append_drop _ _).symm
  have hS'len : v.length ≤ S'.length := by
    have hc := congrArg List.length hS
    simp at hc
    omega
  have hB2 : (g.Buffer.set g.WriteIndex (v.length % 256)).set (g.WriteIndex + 1) (v.length / 256 % 256)
      = P ++ v.length % 256 :: v.length / 256 % 256 :: S' := by
    rw [hW, hsplit]
    rw [List.set_append_right _ _ (by omega)]
    rw [List.set_append_right _ _ (by omega)]
    have e0 : vb.WriteIndex - P.length = 0 := by omega
    have e1 : vb.WriteIndex + 1 - P.length = 1 := by omega
    rw [e0, e1]
    simp
  have hPvb : vb.Buffer.take vb.WriteIndex = P := hpre.symm
  simp only [WriteValue]
  rw [← hg]
  rw [hB2, hW, hR]
  split
  case isTrue hv0 =>
    dsimp only
    refine ⟨by omega, rfl, ?_, ?_⟩
    · simp
      omega
    · rw [hPvb]
      rw [show vb.WriteIndex + (2 + v.length) = P.length + 2 by omega]
      rw [List.take_append]
      have hv : v = [] := List.length_eq_zero.mp hv0
      rw [hv]
      simp [encodeValue]
  case isFalse hv0 =>
    have hbound : (vb.WriteIndex + 1 + 1) + v.length
        ≤ (P ++ v.length % 256 :: v.length / 256 % 256 :: S').length := by
      simp
      omega
    rw [listCopy_inbounds _ _ _ hbound]
    dsimp only
    refine ⟨by omega, rfl, ?_, ?_⟩
    · simp
      omega
    · have htake2 : (P ++ v.length % 256 :: v.length / 256 % 256 :: S').take (vb.WriteIndex + 1 + 1)
          = P ++ [v.length % 256, v.length / 256 % 256] := by
        rw [show vb.WriteIndex + 1 + 1 = P.length + 2 by omega]
        rw [List.take_append]
        rfl
      have hfinal : List.take (vb.WriteIndex + (2 + v.length))
          (P ++ [v.length % 256, v.length / 256 % 256] ++ v ++
            List.drop (vb.WriteIndex + 1 + 1 + v.length)
              (P ++ v.length % 256 :: v.length / 256 % 256 :: S'))
          = P ++ encodeValue v := by
        rw [List.take_left' (show (P ++ [v.length % 256, v.length / 256 % 256] ++ v).length
              = vb.WriteIndex + (2 + v.length) by simp; omega)]
        simp [encodeValue]
      rw [htake2]
      rw [hPvb]
      exact hfinal


theorem writeAll_spec (vs : List (List Nat)) (vb : Values) (h : vb.WriteIndex ≤ vb.Buffer.length) :
    (writeAll vb vs).WriteIndex = vb.WriteIndex + encodedSize vs ∧
    (writeAll vb vs).ReadIndex = vb.ReadIndex ∧
    (writeAll vb vs).WriteIndex ≤ (writeAll vb vs).Buffer.length ∧
    (writeAll vb vs).Buffer.take ((writeAll vb vs).WriteIndex) =
      vb.Buffer.take vb.WriteIndex ++ encodeAll vs := by
  induction vs generalizing vb with
  | nil =>
    refine ⟨by simp [writeAll, encodedSize], rfl, h, ?_⟩
    simp [writeAll, encodeAll]
  | cons v vs ih =>
    obtain ⟨h1, h2, h3, h4⟩ := WriteValue_spec vb v h
    obtain ⟨i1, i2, i3, i4⟩ := ih (WriteValue vb v) h3
    have hwa : writeAll vb (v :: vs) = writeAll (WriteValue vb v) vs := rfl
    refine ⟨?_, ?_, ?_, ?_⟩
    · rw [hwa, i1, h1, encodedSize_cons]; omega
    · rw [hwa, i2, h2]
    · rw [hwa]; exact i3
    · rw [hwa, i4, h1, h4, encodeAll_cons, List.append_assoc]

theorem ReadValue_spec (s : Values) (v rest : List Nat) (hv : v.length ≤ 65535)
    (hB : s.Buffer.drop s.ReadIndex = encodeValue v ++ rest) :
    ReadValue s = (v, { s with ReadIndex := s.ReadIndex + (2 + v.length) }) := by
  have hb0 : s.Buffer.getD s.ReadIndex 0 = v.length % 256 := by
    apply getD_of_drop _ _ _ ((v.length / 256 % 256 :: v) ++ rest)
    rw [hB]; rfl
  have hdrop1 : s.Buffer.drop (s.ReadIndex + 1) = v.length / 256 % 256 :: (v ++ rest) := by
    rw [← List.drop_drop, hB]; rfl
  have hb1 : s.Buffer.getD (s.ReadIndex + 1) 0 = v.length / 256 % 256 :=
    getD_of_drop _ _ _ _ _ hdrop1
  have hlen : s.Buffer.getD s.ReadIndex 0 + 256 * s.Buffer.getD (s.ReadIndex + 1) 0 = v.length := by
    rw [hb0, hb1]; omega
  have hdrop2 : s.Buffer.drop (s.ReadIndex + 2) = v ++ rest := by
    rw [← List.drop_drop, hB]; rfl
  simp only [ReadValue, sizeOfUint16]
  rw [hlen]
  split
  case isTrue h0 =>
    have hvnil : v = [] := List.length_eq_zero.mp h0
    subst hvnil
    simp
  case isFalse h0 =>
    rw [hdrop2]
    rw [List.take_left]
    have : s.ReadIndex + 2 + v.length = s.ReadIndex + (2 + v.length) := by omega
    rw [this]


theorem readAll_spec (vs : List (List Nat)) (s : Values) (rest : List Nat)
    (hv : ∀ v ∈ vs, v.length ≤ 65535)
    (hB : s.Buffer.drop s.ReadIndex = encodeAll vs ++ rest) :
    readAll s vs.length = (vs, { s with ReadIndex := s.ReadIndex + encodedSize vs }) := by
  induction vs generalizing s rest with
  | nil =>
    simp [readAll, encodedSize]
  | cons v vs ih =>
    have hBv : s.Buffer.drop s.ReadIndex = encodeValue v ++ (encodeAll vs ++ rest) := by
      rw [hB, encodeAll_cons, List.append_assoc]
    have hr := ReadValue_spec s v (encodeAll vs ++ rest) (hv v (by simp)) hBv
    have hdropS : ({ s with ReadIndex := s.ReadIndex + (2 + v.length) } : Values).Buffer.drop
        ({ s with ReadIndex := s.ReadIndex + (2 + v.length) } : Values).ReadIndex
        = encodeAll vs ++ rest := by
      dsimp only
      rw [← List.drop_drop, hBv, List.drop_left' (length_encodeValue v)]
    have ih' := ih { s with ReadIndex := s.ReadIndex + (2 + v.length) }
      rest (fun u hu => hv u (List.mem_cons_of_mem _ hu)) hdropS
    show readAll s (vs.length + 1) = _
    simp only [readAll]
    rw [hr]
    dsimp only
    rw [ih']
    dsimp only
    rw [encodedSize_cons]
    have : s.ReadIndex + (2 + v.length) + encodedSize vs = s.ReadIndex + (2 + v.length + encodedSize vs) := by
      omega
    rw [this]


theorem encodeAll_append (xs ys : List (List Nat)) :
    encodeAll (xs ++ ys) = encodeAll xs ++ encodeAll ys := by
  simp [encodeAll]

theorem ReadValue_general (s : Values) (b0 b1 : Nat) (t : List Nat)
    (hB : s.Buffer.drop s.ReadIndex = b0 :: b1 :: t) :
    ReadValue s = if b0 + 256 * b1 = 0 then ([], { s with ReadIndex := s.ReadIndex + 2 })
      else (t.take (b0 + 256 * b1), { s with ReadIndex := s.ReadIndex + 2 + (b0 + 256 * b1) }) := by
  have hb0 : s.Buffer.getD s.ReadIndex 0 = b0 := getD_of_drop _ _ _ _ _ hB
  have hdrop1 : s.Buffer.drop (s.ReadIndex + 1) = b1 :: t := by
    rw [← List.drop_drop, hB]; rfl
  have hb1 : s.Buffer.getD (s.ReadIndex + 1) 0 = b1 := getD_of_drop _ _ _ _ _ hdrop1
  have hdrop2 : s.Buffer.drop (s.ReadIndex + 2) = t := by
    rw [← List.drop_drop, hB]; rfl
  simp only [ReadValue, sizeOfUint16]
  rw [hb0, hb1]
  split
  case isTrue h0 => rfl
  case isFalse h0 =>
    rw [hdrop2]

theorem empty_wf : Values.empty.WriteIndex ≤ Values.empty.Buffer.length := by
  simp [Values.empty]

/-- C1: writing any sequence of byte strings of length at most 65535 (zero-length
allowed) into a fresh `Values` buffer and then reading them all back with
`ReadValue` returns the same strings in the same order, a zero-length write
reading back as the empty value. -/
theorem c1_write_read_roundtrip (vs : List (List Nat)) (hv : ∀ v ∈ vs, v.length ≤ 65535) :
    (readAll (writeAll Values.empty vs) vs.length).1 = vs := by
  obtain ⟨h1, h2, h3, h4⟩ := writeAll_spec vs Values.empty empty_wf
  set w := writeAll Values.empty vs with hw
  have hR0 : w.ReadIndex = 0 := by rw [h2]; rfl
  have hpre : w.Buffer.take w.WriteIndex = encodeAll vs := by
    rw [h4]
    simp [Values.empty]
  have hB : w.Buffer.drop w.ReadIndex = encodeAll vs ++ w.Buffer.drop w.WriteIndex := by
    rw [hR0, List.drop_zero, ← hpre, List.take_append_drop]
  rw [readAll_spec vs w _ hv hB]

theorem c1_write_read_roundtrip_witness :
    (∀ v ∈ [[7], ([] : List Nat), [1, 2]], v.length ≤ 65535) ∧
    (readAll (writeAll Values.empty [[7], ([] : List Nat), [1, 2]])
      [[7], ([] : List Nat), [1, 2]].length).1 = [[7], ([] : List Nat), [1, 2]] :=
  ⟨by decide, c1_write_read_roundtrip _ (by decide)⟩

/-- C4: after any sequence of `WriteValue` calls on an initially empty buffer,
`Bytes` returns exactly the concatenation, in order, of the encoded values
(2-byte length prefix then payload); earlier writes are never corrupted by
buffer growth. -/
theorem c4_bytes_concatenation (vs : List (List Nat)) :
    Bytes (writeAll Values.empty vs) = encodeAll vs := by
  obtain ⟨h1, h2, h3, h4⟩ := writeAll_spec vs Values.empty empty_wf
  unfold Bytes
  rw [h4]
  simp [Values.empty]


/-- C6: within `WriteValue`, the backing storage is reallocated exactly when the
remaining capacity `len(Buffer) - WriteIndex` is smaller than the `2 + len(v)`
bytes required; the new buffer length is exactly `2*(len(Buffer)+1) + required`,
after growing the remaining capacity suffices for the write, and when the
remaining capacity suffices no reallocation occurs. -/
theorem c6_growth_policy (vb : Values) (v : List Nat) (h : vb.WriteIndex ≤ vb.Buffer.length) :
    ((vb.Buffer.length : Int) - (vb.WriteIndex : Int) < 2 + (v.length : Int) →
      (growIfRequired vb (sizeOfUint16 + v.length)).Buffer.length
          = 2 * (vb.Buffer.length + 1) + (2 + v.length) ∧
      vb.WriteIndex + (2 + v.length) ≤ (growIfRequired vb (sizeOfUint16 + v.length)).Buffer.length) ∧
    (2 + (v.length : Int) ≤ (vb.Buffer.length : Int) - (vb.WriteIndex : Int) →
      growIfRequired vb (sizeOfUint16 + v.length) = vb) := by
  have hsz : sizeOfUint16 = 2 := rfl
  constructor
  · intro hlt
    have hc : (vb.Buffer.length : Int) - (vb.WriteIndex : Int) < ((sizeOfUint16 + v.length : Nat) : Int) := by
      rw [hsz]
      push_cast
      omega
    rw [growIfRequired, if_pos hc]
    rw [hsz]
    constructor
    · rw [listCopy_length _ 0 _ (Nat.zero_le _)]
      simp
    · rw [listCopy_length _ 0 _ (Nat.zero_le _)]
      simp
      omega
  · intro hge
    have hc : ¬ ((vb.Buffer.length : Int) - (vb.WriteIndex : Int) < ((sizeOfUint16 + v.length : Nat) : Int)) := by
      rw [hsz]
      push_cast
      omega
    rw [growIfRequired, if_neg hc]

theorem c6_growth_policy_witness :
    ((Values.empty.WriteIndex ≤ Values.empty.Buffer.length) ∧
      (((Values.empty.Buffer.length : Int) - (Values.empty.WriteIndex : Int) < 2 + (([5] : List Nat).length : Int) →
        (growIfRequired Values.empty (sizeOfUint16 + ([5] : List Nat).length)).Buffer.length
            = 2 * (Values.empty.Buffer.length + 1) + (2 + ([5] : List Nat).length) ∧
        Values.empty.WriteIndex + (2 + ([5] : List Nat).length)
            ≤ (growIfRequired Values.empty (sizeOfUint16 + ([5] : List Nat).length)).Buffer.length) ∧
      (2 + (([5] : List Nat).length : Int) ≤ (Values.empty.Buffer.length : Int) - (Values.empty.WriteIndex : Int) →
        growIfRequired Values.empty (sizeOfUint16 + ([5] : List Nat).length) = Values.empty))) :=
  ⟨by decide, c6_growth_policy Values.empty [5] (by decide)⟩

/-- C7: after every sequence of writes starting from the empty buffer,
`WriteIndex ≤ len(Buffer)`; and for any number of reads not exceeding the
number of writes of a well-formed stream, `ReadIndex ≤ WriteIndex` holds after
the reads. -/
theorem c7_index_invariants (vs : List (List Nat)) (k : Nat)
    (hv : ∀ v ∈ vs, v.length ≤ 65535) (hk : k ≤ vs.length) :
    (writeAll Values.empty vs).WriteIndex ≤ (writeAll Values.empty vs).Buffer.length ∧
    (readAll (writeAll Values.empty vs) k).2.ReadIndex
      ≤ (readAll (writeAll Values.empty vs) k).2.WriteIndex := by
  obtain ⟨h1, h2, h3, h4⟩ := writeAll_spec vs Values.empty empty_wf
  set w := writeAll Values.empty vs with hw
  refine ⟨h3, ?_⟩
  have hR0 : w.ReadIndex = 0 := by rw [h2]; rfl
  have hW : w.WriteIndex = encodedSize vs := by rw [h1]; simp [Values.empty]
  have hpre : w.Buffer.take w.WriteIndex = encodeAll vs := by
    rw [h4]
    simp [Values.empty]
  have hsplitvs : vs.take k ++ vs.drop k = vs := List.take_append_drop k vs
  have hB : w.Buffer.drop w.ReadIndex
      = encodeAll (vs.take k) ++ (encodeAll (vs.drop k) ++ w.Buffer.drop w.WriteIndex) := by
    rw [hR0, List.drop_zero, ← List.append_assoc, ← encodeAll_append, hsplitvs,
      ← hpre, List.take_append_drop]
  have hlenk : (vs.take k).length = k := by rw [List.length_take]; omega
  have hra := readAll_spec (vs.take k) w (encodeAll (vs.drop k) ++ w.Buffer.drop w.WriteIndex)
    (fun u hu => hv u (List.take_subset k vs hu)) hB
  rw [hlenk] at hra
  rw [hra]
  have hsz : encodedSize vs = encodedSize (vs.take k) + encodedSize (vs.drop k) := by
    conv_lhs => rw [← hsplitvs]
    rw [encodedSize_append]
  simp only
  omega

theorem c7_index_invariants_witness :
    ((∀ v ∈ [[5], ([] : List Nat)], v.length ≤ 65535) ∧ 1 ≤ [[5], ([] : List Nat)].length) ∧
    ((writeAll Values.empty [[5], ([] : List Nat)]).WriteIndex
        ≤ (writeAll Values.empty [[5], ([] : List Nat)]).Buffer.length ∧
      (readAll (writeAll Values.empty [[5], ([] : List Nat)]) 1).2.ReadIndex
        ≤ (readAll (writeAll Values.empty [[5], ([] : List Nat)]) 1).2.WriteIndex) :=
  ⟨⟨by decide, by decide⟩, c7_index_invariants [[5], ([] : List Nat)] 1 (by decide) (by decide)⟩


/-- C10: for a value of length at least 65536, `WriteValue` performs no check:
it writes the low 16 bits of the length as the 2-byte prefix followed by all
payload bytes, and a subsequent `ReadValue` decodes the length
`len(v) mod 2^16`, which differs from `len(v)` — the stream is silently
malformed. -/
theorem c10_oversize_silent_truncation (v : List Nat) (h : 65536 ≤ v.length) :
    (WriteValue Values.empty v).WriteIndex = 2 + v.length ∧
    Bytes (WriteValue Values.empty v)
      = v.length % 65536 % 256 :: v.length % 65536 / 256 :: v ∧
    (ReadValue (WriteValue Values.empty v)).1 = v.take (v.length % 65536) ∧
    v.length % 65536 ≠ v.length := by
  obtain ⟨h1, h2, h3, h4⟩ := WriteValue_spec Values.empty v empty_wf
  set w := WriteValue Values.empty v with hw
  have hW : w.WriteIndex = 2 + v.length := by rw [h1]; simp [Values.empty]
  have hR0 : w.ReadIndex = 0 := by rw [h2]; rfl
  have hpre : w.Buffer.take (2 + v.length) = encodeValue v := by
    have h4' := h4
    simp only [Values.empty, List.take_nil, List.nil_append] at h4'
    rw [show (0 : Nat) + (2 + v.length) = 2 + v.length by omega] at h4'
    exact h4'
  have hsplitB : w.Buffer = encodeValue v ++ w.Buffer.drop (2 + v.length) := by
    conv_lhs => rw [← List.take_append_drop (2 + v.length) w.Buffer]
    rw [hpre]
  have e0 : v.length % 65536 % 256 = v.length % 256 := by omega
  have e1 : v.length % 65536 / 256 = v.length / 256 % 256 := by omega
  have ed : v.length % 256 + 256 * (v.length / 256 % 256) = v.length % 65536 := by omega
  refine ⟨hW, ?_, ?_, by omega⟩
  · unfold Bytes
    rw [hW, hpre, e0, e1]
    rfl
  · have hdropR : w.Buffer.drop w.ReadIndex
        = v.length % 256 :: v.length / 256 % 256 :: (v ++ w.Buffer.drop (2 + v.length)) := by
      rw [hR0, List.drop_zero]
      conv_lhs => rw [hsplitB]
      rfl
    rw [ReadValue_general w _ _ _ hdropR, ed]
    by_cases h0 : v.length % 65536 = 0
    · rw [if_pos h0, h0]
      simp
    · rw [if_neg h0]
      simp only
      rw [List.take_append_of_le_length (by omega)]

theorem c10_oversize_silent_truncation_witness :
    65536 ≤ (List.replicate 65536 (0 : Nat)).length ∧
    ((WriteValue Values.empty (List.replicate 65536 (0 : Nat))).WriteIndex
        = 2 + (List.replicate 65536 (0 : Nat)).length ∧
      Bytes (WriteValue Values.empty (List.replicate 65536 (0 : Nat)))
        = (List.replicate 65536 (0 : Nat)).length % 65536 % 256
            :: (List.replicate 65536 (0 : Nat)).length % 65536 / 256
            :: List.replicate 65536 (0 : Nat) ∧
      (ReadValue (WriteValue Values.empty (List.replicate 65536 (0 : Nat)))).1
        = (List.replicate 65536 (0 : Nat)).take ((List.replicate 65536 (0 : Nat)).length % 65536) ∧
      (List.replicate 65536 (0 : Nat)).length % 65536 ≠ (List.replicate 65536 (0 : Nat)).length) :=
  ⟨by rw [List.length_replicate], c10_oversize_silent_truncation (List.replicate 65536 (0 : Nat))
    (by rw [List.length_replicate])⟩


end tagencoding

namespace stackdriver

theorem olRun_drops_paused (st : OLState) (k : Nat) (h : st.pause = true) :
    olRun st (List.replicate k .drop) = ({ st with accum := st.accum + k }, []) := by
  induction k generalizing st with
  | zero => simp [olRun]
  | succ k ih =>
    have hstep : olStep st .drop = ({ st with accum := st.accum + 1 }, []) := by
      simp [olStep, h]
    rw [List.replicate_succ]
    simp only [olRun]
    rw [hstep]
    dsimp only
    rw [ih { st with accum := st.accum + 1 } h]
    dsimp only
    have : st.accum + 1 + k = st.accum + (k + 1) := by omega
    rw [this]
    simp

theorem olRun_drops_le_one (st : OLState) (k : Nat) :
    ((olRun st (List.replicate k OLEvent.drop)).2).length ≤ 1 := by
  cases hp : st.pause with
  | true =>
    rw [olRun_drops_paused st k hp]
    simp
  | false =>
    cases k with
    | zero => simp [olRun]
    | succ k =>
      have hstep : olStep st .drop
          = ({ pause := true, accum := st.accum, timerArmed := true }, [.bufferFull]) := by
        simp [olStep, hp]
      rw [List.replicate_succ]
      simp only [olRun]
      rw [hstep]
      dsimp only
      rw [olRun_drops_paused _ k rfl]
      simp


/-- C2: for any interleaving of drop notifications and timer fires, at most one
log line is emitted per quiet window: any run of consecutive drop events emits
at most one log line, a timer fire followed by any number of drops still emits
at most one log line in total, and a drop arriving while the logger is paused
only increments the accumulated-drops counter and emits no log. -/
theorem c2_overflow_rate_limit (st : OLState) (k : Nat) :
    ((olRun st (List.replicate k OLEvent.drop)).2).length ≤ 1 ∧
    ((olRun st (OLEvent.timerFire :: List.replicate k OLEvent.drop)).2).length ≤ 1 ∧
    (st.pause = true → olStep st .drop = ({ st with accum := st.accum + 1 }, [])) := by
  refine ⟨olRun_drops_le_one st k, ?_, fun h => by simp [olStep, h]⟩
  simp only [olRun]
  by_cases h0 : st.accum = 0
  · have hstep : olStep st .timerFire = ({ pause := false, accum := 0, timerArmed := false }, []) := by
      simp [olStep, h0]
    rw [hstep]
    dsimp only
    simpa using olRun_drops_le_one { pause := false, accum := 0, timerArmed := false } k
  · by_cases h1 : st.accum = 1
    · have hstep : olStep st .timerFire
          = ({ pause := true, accum := 0, timerArmed := true }, [.bufferFull]) := by
        simp [olStep, h0, h1]
      rw [hstep]
      dsimp only
      rw [olRun_drops_paused _ k rfl]
      simp
    · have hstep : olStep st .timerFire
          = ({ pause := true, accum := 0, timerArmed := true }, [.droppedSpans st.accum]) := by
        simp [olStep, h0, h1]
      rw [hstep]
      dsimp only
      rw [olRun_drops_paused _ k rfl]
      simp

theorem c2_overflow_rate_limit_witness :
    ((olRun (OLState.mk true 3 true) (List.replicate 5 OLEvent.drop)).2).length ≤ 1 ∧
    ((olRun (OLState.mk true 3 true) (OLEvent.timerFire :: List.replicate 5 OLEvent.drop)).2).length ≤ 1 ∧
    ((OLState.mk true 3 true).pause = true →
      olStep (OLState.mk true 3 true) .drop
        = ({ OLState.mk true 3 true with accum := (OLState.mk true 3 true).accum + 1 }, [])) ∧
    olStep (OLState.mk true 3 true) .drop = (OLState.mk true 4 true, []) :=
  ⟨(c2_overflow_rate_limit (OLState.mk true 3 true) 5).1,
   (c2_overflow_rate_limit (OLState.mk true 3 true) 5).2.1,
   (c2_overflow_rate_limit (OLState.mk true 3 true) 5).2.2,
   (c2_overflow_rate_limit (OLState.mk true 3 true) 5).2.2 rfl⟩

/-- C5: when the armed timer fires with `accum = 1` the logger emits the
single-drop message, resets the counter, re-arms the timer, and settles to the
idle state on the next silent fire; when it fires with `accum > 1` it emits the
count-summary message carrying the accumulated count, resets the counter, and
stays paused with the timer re-armed. -/
theorem c5_timer_fire_transitions (st : OLState) (h : st.timerArmed = true) :
    (st.accum = 1 →
      olStep st .timerFire = ({ pause := true, accum := 0, timerArmed := true }, [.bufferFull]) ∧
      olStep { pause := true, accum := 0, timerArmed := true } .timerFire
        = ({ pause := false, accum := 0, timerArmed := false }, [])) ∧
    (1 < st.accum →
      olStep st .timerFire
        = ({ pause := true, accum := 0, timerArmed := true }, [.droppedSpans st.accum])) := by
  constructor
  · intro h1
    constructor
    · simp [olStep, h1]
    · simp [olStep]
  · intro h2
    have h0 : ¬ st.accum = 0 := by omega
    have h1 : ¬ st.accum = 1 := by omega
    simp [olStep, h0, h1]

theorem c5_timer_fire_transitions_witness :
    ((OLState.mk true 1 true).timerArmed = true ∧
      (((OLState.mk true 1 true).accum = 1 →
        olStep (OLState.mk true 1 true) .timerFire
          = ({ pause := true, accum := 0, timerArmed := true }, [.bufferFull]) ∧
        olStep { pause := true, accum := 0, timerArmed := true } .timerFire
          = ({ pause := false, accum := 0, timerArmed := false }, [])) ∧
      (1 < (OLState.mk true 1 true).accum →
        olStep (OLState.mk true 1 true) .timerFire
          = ({ pause := true, accum := 0, timerArmed := true },
              [.droppedSpans (OLState.mk true 1 true).accum])))) ∧
    ((OLState.mk true 3 true).timerArmed = true ∧
      (((OLState.mk true 3 true).accum = 1 →
        olStep (OLState.mk true 3 true) .timerFire
          = ({ pause := true, accum := 0, timerArmed := true }, [.bufferFull]) ∧
        olStep { pause := true, accum := 0, timerArmed := true } .timerFire
          = ({ pause := false, accum := 0, timerArmed := false }, [])) ∧
      (1 < (OLState.mk true 3 true).accum →
        olStep (OLState.mk true 3 true) .timerFire
          = ({ pause := true, accum := 0, timerArmed := true },
              [.droppedSpans (OLState.mk true 3 true).accum])))) :=
  ⟨⟨rfl, c5_timer_fire_transitions (OLState.mk true 1 true) rfl⟩,
   ⟨rfl, c5_timer_fire_transitions (OLState.mk true 3 true) rfl⟩⟩


/-- C3: `Export` never surfaces an error to its caller; a record whose weight
alone exceeds the hard per-batch limit is uploaded on its own via a detached
task with the pending batch untouched; a record that would exceed the
buffered-weight ceiling is dropped (not stored, not uploaded) with only the
overflow logger notified; any other `Add` error produces only a diagnostic
log. -/
theorem c3_export_error_handling (cfg : Bundler) (st : BundlerState) (s : SpanData) :
    (cfg.BundleByteLimit < ((1 + s.Attributes.length + s.Annotations.length
        + s.MessageEvents.length + s.StackTrace.length : Nat) : Int) →
      Export cfg st s = (st, .detachedUpload [s])) ∧
    (((1 + s.Attributes.length + s.Annotations.length
        + s.MessageEvents.length + s.StackTrace.length : Nat) : Int) ≤ cfg.BundleByteLimit →
      cfg.BufferedByteLimit < (st.bufferedWeight : Int)
          + ((1 + s.Attributes.length + s.Annotations.length
              + s.MessageEvents.length + s.StackTrace.length : Nat) : Int) →
      Export cfg st s = (st, .overflowLog)) ∧
    (∀ r : BundlerState, exportSwitch st s (.errOther, r) = (st, .diagnosticLog)) := by
  refine ⟨?_, ?_, fun r => rfl⟩
  · intro hlt
    simp only [Export, bundlerAdd, if_pos hlt]
    rfl
  · intro hge hovf
    simp only [Export, bundlerAdd, if_neg (not_lt.mpr hge), if_pos hovf]
    rfl

theorem c3_export_error_handling_witness :
    (Bundler.mk 0 0 0 0 10).BundleByteLimit
        < ((1 + (SpanData.mk [] [] [] []).Attributes.length
            + (SpanData.mk [] [] [] []).Annotations.length
            + (SpanData.mk [] [] [] []).MessageEvents.length
            + (SpanData.mk [] [] [] []).StackTrace.length : Nat) : Int) ∧
    Export (Bundler.mk 0 0 0 0 10) (BundlerState.mk [] 0) (SpanData.mk [] [] [] [])
        = (BundlerState.mk [] 0, .detachedUpload [SpanData.mk [] [] [] []]) ∧
    ((1 + (SpanData.mk [] [] [] []).Attributes.length
        + (SpanData.mk [] [] [] []).Annotations.length
        + (SpanData.mk [] [] [] []).MessageEvents.length
        + (SpanData.mk [] [] [] []).StackTrace.length : Nat) : Int)
        ≤ (Bundler.mk 0 0 0 5 0).BundleByteLimit ∧
    (Bundler.mk 0 0 0 5 0).BufferedByteLimit < ((BundlerState.mk [] 0).bufferedWeight : Int)
        + ((1 + (SpanData.mk [] [] [] []).Attributes.length
            + (SpanData.mk [] [] [] []).Annotations.length
            + (SpanData.mk [] [] [] []).MessageEvents.length
            + (SpanData.mk [] [] [] []).StackTrace.length : Nat) : Int) ∧
    Export (Bundler.mk 0 0 0 5 0) (BundlerState.mk [] 0) (SpanData.mk [] [] [] [])
        = (BundlerState.mk [] 0, .overflowLog) ∧
    exportSwitch (BundlerState.mk [] 0) (SpanData.mk [] [] [] [])
        (.errOther, BundlerState.mk [] 7) = (BundlerState.mk [] 0, .diagnosticLog) :=
  ⟨by decide,
   (c3_export_error_handling (Bundler.mk 0 0 0 0 10) (BundlerState.mk [] 0)
     (SpanData.mk [] [] [] [])).1 (by decide),
   by decide,
   by decide,
   (c3_export_error_handling (Bundler.mk 0 0 0 5 0) (BundlerState.mk [] 0)
     (SpanData.mk [] [] [] [])).2.1 (by decide) (by decide),
   (c3_export_error_handling (Bundler.mk 0 0 0 5 0) (BundlerState.mk [] 0)
     (SpanData.mk [] [] [] [])).2.2 (BundlerState.mk [] 7)⟩

/-- C8: the bundler constructed by `newExporter` uses the configured
`BundleDelayThreshold` when positive and 2 seconds otherwise, the configured
`BundleCountThreshold` when positive and 50 otherwise, and derives the byte
soft limit, the hard per-batch limit and the buffered-weight ceiling as the
count threshold times 200, 1000 and 2000 respectively. -/
theorem c8_bundler_configuration (o : Options) :
    (newExporter o).bundler.DelayThreshold
        = (if 0 < o.BundleDelayThreshold then o.BundleDelayThreshold else 2 * timeSecond) ∧
    (newExporter o).bundler.BundleCountThreshold
        = (if 0 < o.BundleCountThreshold then o.BundleCountThreshold else 50) ∧
    (newExporter o).bundler.BundleByteThreshold
        = (newExporter o).bundler.BundleCountThreshold * 200 ∧
    (newExporter o).bundler.BundleByteLimit
        = (newExporter o).bundler.BundleCountThreshold * 1000 ∧
    (newExporter o).bundler.BufferedByteLimit
        = (newExporter o).bundler.BundleCountThreshold * 2000 :=
  ⟨rfl, rfl, rfl, rfl, rfl⟩

/-- C9: `Export` computes the weight of a span record as
`1 + len(Attributes) + len(Annotations) + len(MessageEvents) + len(StackTrace)`
and hands exactly this weight to the batching buffer: on acceptance the
buffered weight grows by exactly that amount and the record is appended to the
pending batch. -/
theorem c9_weight_heuristic (cfg : Bundler) (st : BundlerState) (s : SpanData)
    (h : (Export cfg st s).2 = .accepted) :
    (Export cfg st s).1.bufferedWeight
        = st.bufferedWeight + (1 + s.Attributes.length + s.Annotations.length
            + s.MessageEvents.length + s.StackTrace.length) ∧
    (Export cfg st s).1.pending = st.pending ++ [s] := by
  by_cases h1 : cfg.BundleByteLimit < ((1 + s.Attributes.length + s.Annotations.length
      + s.MessageEvents.length + s.StackTrace.length : Nat) : Int)
  · exfalso
    simp only [Export, bundlerAdd, exportSwitch, if_pos h1] at h
    simp at h
  · by_cases h2 : cfg.BufferedByteLimit < (st.bufferedWeight : Int)
        + ((1 + s.Attributes.length + s.Annotations.length
            + s.MessageEvents.length + s.StackTrace.length : Nat) : Int)
    · exfalso
      simp only [Export, bundlerAdd, exportSwitch, if_neg h1, if_pos h2] at h
      simp at h
    · constructor
      · simp only [Export, bundlerAdd, if_neg h1, if_neg h2]
        rfl
      · simp only [Export, bundlerAdd, if_neg h1, if_neg h2]
        rfl

theorem c9_weight_heuristic_witness :
    (Export (Bundler.mk 0 0 0 100 100) (BundlerState.mk [] 2)
        (SpanData.mk [("k", 1)] ["a"] [] [3, 4])).2 = .accepted ∧
    ((Export (Bundler.mk 0 0 0 100 100) (BundlerState.mk [] 2)
        (SpanData.mk [("k", 1)] ["a"] [] [3, 4])).1.bufferedWeight
      = (BundlerState.mk [] 2).bufferedWeight
          + (1 + (SpanData.mk [("k", 1)] ["a"] [] [3, 4]).Attributes.length
              + (SpanData.mk [("k", 1)] ["a"] [] [3, 4]).Annotations.length
              + (SpanData.mk [("k", 1)] ["a"] [] [3, 4]).MessageEvents.length
              + (SpanData.mk [("k", 1)] ["a"] [] [3, 4]).StackTrace.length) ∧
      (Export (Bundler.mk 0 0 0 100 100) (BundlerState.mk [] 2)
        (SpanData.mk [("k", 1)] ["a"] [] [3, 4])).1.pending
      = (BundlerState.mk [] 2).pending ++ [SpanData.mk [("k", 1)] ["a"] [] [3, 4]]) :=
  ⟨by decide,
   c9_weight_heuristic (Bundler.mk 0 0 0 100 100) (BundlerState.mk [] 2)
     (SpanData.mk [("k", 1)] ["a"] [] [3, 4]) (by decide)⟩


end stackdriver
